import Mathlib

/-!
Verification development for the Event Horizon backend node-graph engine.

The definitions below are shallow embeddings of the JavaScript source:
the Mongo collections become Lean lists of documents, each route handler
or model static becomes a Lean function on those lists, and the
asynchronous store round-trips become explicit state passing.  Machine
details that the graph logic never inspects (timestamps, viewport,
authentication tokens) are omitted; every field the graph code reads or
writes is carried.
-/

namespace EventHorizon

/-! ## Data model

A document of the "nodes" collection (src/models/node.js, second schema
version: types include outputNode and block, fields inputNodeIds and
children).  String ids stand for the stringified Mongo object ids.
-/

structure Position where
  x : Int
  y : Int
deriving Repr, DecidableEq

structure NodeDoc where
  id : String
  userId : String
  horizonId : String
  type : String
  parentId : Option String
  blockId : Option String
  children : List String
  inputNodeIds : List String
  childNodeIds : List String
  depth : Nat
  position : Position
  dataPayload : String
  dataOutput : Option String
  selected : Bool
  isActive : Bool
  executionOrder : Int
deriving Repr, DecidableEq

/-- A presentation edge as synthesized by buildEdgesFromNodes in
src/models/horizon.js: id, source, target, type, animated flag and the
data.output payload carried over from the target node. -/
structure Edge where
  id : String
  source : String
  target : String
  type : String
  animated : Bool
  data : Option String
deriving Repr, DecidableEq

/-! ## Edge synthesis (Horizon.buildEdgesFromNodes) -/

/-- The nodeMap lookup: the JS code fills a Map by iterating the node
list and calling set, so for duplicate keys the last write wins.  foldl
with overwrite reproduces that. -/
def lookupNode (ns : List NodeDoc) (i : String) : Option NodeDoc :=
  ns.foldl (fun acc n => if n.id = i then some n else acc) none

/-- Edge record pushed by the parentId pass of buildEdgesFromNodes. -/
def mkParentEdge (src tgt : String) (out : Option String) : Edge :=
  { id := "edge-" ++ src ++ "-" ++ tgt
  , source := src
  , target := tgt
  , type := "custom"
  , animated := false
  , data := out }

/-- First pass of buildEdgesFromNodes for one node: a node with a
parentId contributes one edge, except that an outputNode contributes
one only when its parent is found in the map, is an agentNode, and
names this node as the first entry of its children list. -/
def parentEdge (ns : List NodeDoc) (n : NodeDoc) : Option Edge :=
  match n.parentId with
  | none => none
  | some p =>
    if n.type = "outputNode" then
      match lookupNode ns p with
      | some parent =>
        if parent.type = "agentNode" ∧ parent.children.head? = some n.id then
          some (mkParentEdge p n.id n.dataOutput)
        else
          none
      | none => none
    else
      some (mkParentEdge p n.id n.dataOutput)

/-- All edges produced by the parentId pass, in node-list order. -/
def parentEdges (ns : List NodeDoc) : List Edge :=
  ns.filterMap (parentEdge ns)

/-- Edge record pushed by the inputNodeIds pass: data is null. -/
def mkInputEdge (src tgt : String) : Edge :=
  { id := "edge-" ++ src ++ "-" ++ tgt
  , source := src
  , target := tgt
  , type := "custom"
  , animated := false
  , data := none }

/-- One step of the inputNodeIds pass: push an edge from the referenced
input id to the node unless the (source, target) pair already appears in
the accumulated list or the input id is absent from the node map. -/
def inputEdgeStep (ns : List NodeDoc) (tgt : String) (acc : List Edge) (i : String) : List Edge :=
  if (¬ acc.any (fun e => e.source = i ∧ e.target = tgt)) ∧ (lookupNode ns i).isSome then
    acc ++ [mkInputEdge i tgt]
  else
    acc

/-- Second pass of buildEdgesFromNodes: for every node, fold its
inputNodeIds into the accumulated edge list. -/
def addInputEdges (ns : List NodeDoc) (acc : List Edge) : List Edge :=
  ns.foldl (fun acc n => n.inputNodeIds.foldl (inputEdgeStep ns n.id) acc) acc

/-- Horizon.buildEdgesFromNodes: the parentId pass followed by the
inputNodeIds pass. -/
def buildEdgesFromNodes (ns : List NodeDoc) : List Edge :=
  addInputEdges ns (parentEdges ns)

/-! ## Descendant traversal (Node.findDescendants, src/models/node.js)

The JS method keeps a queue and a descendants array, repeatedly shifts
the front id, queries the active children of that id in the workspace,
and pushes every child both to the array and to the back of the queue.
There is no visited set.  The loop condition is queue.length > 0, so in
Lean the loop is indexed by fuel: some means the while loop finished
within that many iterations, none means it was still running. -/

def childIdsOf (store : List NodeDoc) (hid cur : String) : List String :=
  (store.filter (fun n => n.horizonId = hid ∧ n.parentId = some cur ∧ n.isActive)).map NodeDoc.id

def findDescendantsAux (store : List NodeDoc) (hid : String) :
    Nat → List String → List String → Option (List String)
  | _, [], acc => some acc
  | 0, _ :: _, _ => none
  | fuel + 1, cur :: rest, acc =>
    let cs := childIdsOf store hid cur
    findDescendantsAux store hid fuel (rest ++ cs) (acc ++ cs)

/-- Node.findDescendants(nodeId, horizonId): breadth-first worklist walk
down the parentId links.  Returns the descendant id list if the loop
finishes within the given number of iterations. -/
def findDescendants (store : List NodeDoc) (nid hid : String) (fuel : Nat) :
    Option (List String) :=
  findDescendantsAux store hid fuel [nid] []

/-! ## Cascade delete (DELETE /nodes/:id, src/routes/nodes.js)

State transforms for each store write the handler performs, in order.
Document ids are unique in the collection, so a per-id updateMany or
findByIdAndUpdate is modeled as a map over the list. -/

/-- updateMany over the node and descendant ids: set isActive false. -/
def cascadeDeactivate (store : List NodeDoc) (nodeIds : List String) : List NodeDoc :=
  store.map (fun n => if n.id ∈ nodeIds then { n with isActive := false } else n)

/-- updateMany clearing parentId on active nodes of the workspace that
still reference the deleted node directly. -/
def clearParentRefs (store : List NodeDoc) (hid nid : String) : List NodeDoc :=
  store.map (fun n =>
    if n.horizonId = hid ∧ n.parentId = some nid ∧ n.isActive then
      { n with parentId := none, depth := 0 }
    else n)

/-- Pull the deleted id out of the children array of the former parent. -/
def pullFromChildren (store : List NodeDoc) (pid nid : String) : List NodeDoc :=
  store.map (fun n =>
    if n.id = pid then { n with children := n.children.filter (fun c => c ≠ nid) } else n)

/-- The defensive orphan sweep at the end of the delete handler: every
active node of the workspace whose parentId references no active
document gets its parentId cleared.  The handler loops over a snapshot
of the active nodes and only writes parentId and depth, so the
existence checks are unaffected by earlier iterations and the loop
equals a simultaneous map. -/
def orphanSweep (store : List NodeDoc) (hid : String) : List NodeDoc :=
  store.map (fun n =>
    if n.horizonId = hid ∧ n.isActive ∧ n.parentId.isSome ∧
        ¬ ∃ q ∈ store, some q.id = n.parentId ∧ q.isActive then
      { n with parentId := none, depth := 0 }
    else n)

/-- DELETE /nodes/:id after the auth checks: find the active node,
collect its descendants, deactivate the whole set, clear direct
references, fix the children array of the former parent, then sweep orphans.  The
horizon stats write at the end touches only the horizons collection and
is modeled with the horizon operations below.  none models a 404 (no
active node) or the handler still being inside the descendant loop. -/
def deleteNodeRoute (store : List NodeDoc) (nid : String) (fuel : Nat) :
    Option (List NodeDoc) :=
  match store.find? (fun n => n.id = nid ∧ n.isActive) with
  | none => none
  | some node =>
    match findDescendants store nid node.horizonId fuel with
    | none => none
    | some ds =>
      let s1 := cascadeDeactivate store (nid :: ds)
      let s2 := clearParentRefs s1 node.horizonId nid
      let s3 :=
        match node.parentId with
        | some p => pullFromChildren s2 p nid
        | none => s2
      some (orphanSweep s3 node.horizonId)

/-! ## Orphan repair on read (GET /horizons/:id, part_005)

The aggregator loads the active nodes of the workspace, clears every
parentId that does not point into that set (persisting the fix), then
maps the reloaded nodes to the response shape, re-validating parentId
against the reloaded id set. -/

def activeNodesIn (store : List NodeDoc) (hid : String) : List NodeDoc :=
  store.filter (fun n => n.horizonId = hid ∧ n.isActive)

def activeIdsIn (store : List NodeDoc) (hid : String) : List String :=
  (activeNodesIn store hid).map NodeDoc.id

/-- The JS test node.parentId && !validNodeIds.has(parentId): parentId
is set but does not belong to the valid id set. -/
def danglingParent (validIds : List String) (n : NodeDoc) : Bool :=
  match n.parentId with
  | some p => ¬ p ∈ validIds
  | none => false

/-- nodesToClean: active nodes of the workspace whose parentId is set
but does not belong to the valid id set. -/
def nodesToClean (store : List NodeDoc) (hid : String) : List NodeDoc :=
  (activeNodesIn store hid).filter (danglingParent (activeIdsIn store hid))

def cleanIds (store : List NodeDoc) (hid : String) : List String :=
  (nodesToClean store hid).map NodeDoc.id

/-- Effect of the corrective updateMany on one document: documents
whose _id is among the ids to clean, in this workspace and active, get
parentId null and depth 0. -/
def repairFun (store : List NodeDoc) (hid : String) (n : NodeDoc) : NodeDoc :=
  if n.id ∈ cleanIds store hid ∧ n.horizonId = hid ∧ n.isActive then
    { n with parentId := none, depth := 0 }
  else n

/-- The corrective updateMany over the collection. -/
def repairOrphans (store : List NodeDoc) (hid : String) : List NodeDoc :=
  store.map (repairFun store hid)

/-- Node entry of the workspace view response (React Flow shape). -/
structure RespNode where
  id : String
  type : String
  position : Position
  data : String
  selected : Bool
  parentId : Option String
  blockId : Option String
  inputNodeIds : List String
  childNodeIds : List String
deriving Repr, DecidableEq

/-- Response mapping for one node: parentId is forwarded only when it
is in the valid id set, otherwise the response carries null. -/
def toRespNode (validIds : List String) (n : NodeDoc) : RespNode :=
  { id := n.id
  , type := n.type
  , position := n.position
  , data := n.dataPayload
  , selected := n.selected
  , parentId :=
      match n.parentId with
      | some p => if p ∈ validIds then some p else none
      | none => none
  , blockId := n.blockId
  , inputNodeIds := n.inputNodeIds
  , childNodeIds := n.childNodeIds }

/-- GET /horizons/:id, node portion: repair orphans when any are found
(reloading afterwards), then serialize the active nodes.  Returns the
response node list together with the persisted store after the call. -/
def getWorkspaceView (store : List NodeDoc) (hid : String) :
    List RespNode × List NodeDoc :=
  let repaired :=
    if nodesToClean store hid = [] then store else repairOrphans store hid
  let act := activeNodesIn repaired hid
  let valid := act.map NodeDoc.id
  (act.map (toRespNode valid), repaired)

/-! ## Workspace save sync (PUT /horizons/:id, src/routes/horizons.js)

The client submits a full node list; the handler deactivates persisted
active nodes absent from it, inserts the fresh ids, and bulk-updates
each submitted id in place. -/

/-- Shape of one client-submitted node in the PUT body. -/
structure SubmittedNode where
  id : String
  type : String
  position : Position
  data : String
  selected : Bool
deriving Repr, DecidableEq

/-- The $set applied by the bulk updateOne for a submitted node. -/
def applySet (n : NodeDoc) (sn : SubmittedNode) : NodeDoc :=
  { n with
    type := sn.type
  , position := sn.position
  , dataPayload := sn.data
  , selected := sn.selected
  , isActive := true }

/-- Document created by insertMany for a submitted node the workspace
does not know yet: the client-supplied id becomes the _id and the other
node fields take their schema defaults. -/
def freshDoc (callerId hid : String) (sn : SubmittedNode) : NodeDoc :=
  { id := sn.id
  , userId := callerId
  , horizonId := hid
  , type := sn.type
  , parentId := none
  , blockId := none
  , children := []
  , inputNodeIds := []
  , childNodeIds := []
  , depth := 0
  , position := sn.position
  , dataPayload := sn.data
  , dataOutput := none
  , selected := sn.selected
  , isActive := true
  , executionOrder := 0 }

/-- Mongo updateOne: update the first (hence, ids being unique, the
only) document matching the filter. -/
def updateFirst (p : NodeDoc → Prop) [DecidablePred p] (f : NodeDoc → NodeDoc) :
    List NodeDoc → List NodeDoc
  | [] => []
  | x :: xs => if p x then f x :: xs else x :: updateFirst p f xs

/-- The bulkWrite: one ordered updateOne per submitted node, filtering
on _id, userId and horizonId. -/
def bulkUpdateOps (callerId hid : String) (subs : List SubmittedNode)
    (l : List NodeDoc) : List NodeDoc :=
  subs.foldl
    (fun acc sn =>
      updateFirst (fun n => n.id = sn.id ∧ n.userId = callerId ∧ n.horizonId = hid)
        (fun n => applySet n sn) acc)
    l

/-- nodesToDelete: persisted active ids of the workspace missing from
the submitted list. -/
def syncToDelete (store : List NodeDoc) (hid : String)
    (subs : List SubmittedNode) : List String :=
  (activeIdsIn store hid).filter (fun i => ¬ i ∈ subs.map SubmittedNode.id)

/-- The deactivating updateMany over the ids the client dropped. -/
def syncDeactivate (store : List NodeDoc) (hid : String)
    (subs : List SubmittedNode) : List NodeDoc :=
  store.map (fun n =>
    if n.id ∈ syncToDelete store hid subs then { n with isActive := false } else n)

/-- newNodes: submitted nodes whose id is not among the workspace
active ids; these go to insertMany. -/
def syncNewSubs (store : List NodeDoc) (hid : String)
    (subs : List SubmittedNode) : List SubmittedNode :=
  subs.filter (fun sn => ¬ sn.id ∈ activeIdsIn store hid)

/-- PUT /horizons/:id, nodes branch: deactivate the active ids the
client dropped, insert the ids the workspace does not know, then run
the bulk update.  insertMany throws on a duplicate _id (the collection
is keyed by _id), which aborts the request after the deactivation; that
failure is modeled as none. -/
def syncWorkspaceNodes (store : List NodeDoc) (callerId hid : String)
    (subs : List SubmittedNode) : Option (List NodeDoc) :=
  if (∃ sn ∈ syncNewSubs store hid subs, ∃ n ∈ store, n.id = sn.id) ∨
      ¬ ((syncNewSubs store hid subs).map SubmittedNode.id).Nodup then
    none
  else
    some (bulkUpdateOps callerId hid subs
      (syncDeactivate store hid subs ++ (syncNewSubs store hid subs).map (freshDoc callerId hid)))

/-! ## Horizon documents and stats (src/models/horizon.js) -/

/-- Entry of the embedded horizon.nodes array (legacy storage; the save
hook only reads its length). -/
structure EmbeddedNode where
  id : String
deriving Repr, DecidableEq

structure HorizonStats where
  nodeCount : Nat
  edgeCount : Nat
  agentCount : Nat
  portfolioCount : Nat
deriving Repr, DecidableEq

/-- Horizon document; sharedWith pairs a user id with an editor flag
(role editor versus viewer). -/
structure HorizonDoc where
  id : String
  userId : String
  nodes : List EmbeddedNode
  availableAgents : List String
  portfolios : List String
  sharedWith : List (String × Bool)
  isPublic : Bool
  isActive : Bool
  stats : HorizonStats
  version : Nat
deriving Repr, DecidableEq

/-- HorizonSchema.methods.hasAccess: owner always, public for viewer
access, otherwise the sharedWith entry decides. -/
def hasAccess (h : HorizonDoc) (uid : String) (requireEditor : Bool) : Bool :=
  if h.userId = uid then true
  else if h.isPublic ∧ requireEditor = false then true
  else
    match h.sharedWith.find? (fun s => s.1 = uid) with
    | none => false
    | some s => if requireEditor then s.2 else true

/-- HorizonSchema.pre("save"): recomputes every stat from the embedded
arrays (nodeCount from the embedded nodes array, edgeCount reset to 0
to be computed on read) and bumps version on non-new saves. -/
def horizonPreSave (isNew : Bool) (h : HorizonDoc) : HorizonDoc :=
  { h with
    stats :=
      { nodeCount := h.nodes.length
      , edgeCount := 0
      , agentCount := h.availableAgents.length
      , portfolioCount := h.portfolios.length }
  , version := if isNew then h.version else h.version + 1 }

/-- Count of active nodes of the workspace in the nodes collection. -/
def countActive (store : List NodeDoc) (hid : String) : Nat :=
  (activeNodesIn store hid).length

/-- Count of active nodes of the workspace with a non-null parentId. -/
def countActiveWithParent (store : List NodeDoc) (hid : String) : Nat :=
  ((activeNodesIn store hid).filter (fun n => n.parentId ≠ none)).length

/-- Stats portion of the PUT handler followed by horizon.save(): the
handler assigns the collection-derived counts into stats, then the
pre-save hook runs on the same document before it is persisted. -/
def putHorizonStatsSave (h : HorizonDoc) (store : List NodeDoc) : HorizonDoc :=
  horizonPreSave false
    { h with
      stats :=
        { h.stats with
          nodeCount := countActive store h.id
        , edgeCount := countActiveWithParent store h.id } }

/-- PUT /horizons/:id with a nodes list: guards, node sync, stats
recomputation, save.  Returns the persisted nodes collection and the
persisted horizon document. -/
def putHorizonRoute (store : List NodeDoc) (h : HorizonDoc) (callerId : String)
    (subs : List SubmittedNode) : Option (List NodeDoc × HorizonDoc) :=
  if h.isActive = false then none
  else if hasAccess h callerId true = false then none
  else
    match syncWorkspaceNodes store callerId h.id subs with
    | none => none
    | some store1 => some (store1, putHorizonStatsSave h store1)

/-! ## Node creation (POST /nodes, src/routes/nodes.js) -/

inductive ApiErr where
  | validation
  | notFound
  | forbidden
deriving Repr, DecidableEq

/-- Request body of POST /nodes; absent JSON fields are the defaults
the handler substitutes.  The empty string models a missing horizonId
or type (both falsy in JS). -/
structure CreateReq where
  horizonId : String
  type : String
  parentId : Option String
  position : Position
  data : String
  executionOrder : Int
  inputNodeIds : List String
  childNodes : List String
deriving Repr, DecidableEq

/-- Depth assigned by the NodeSchema pre-save hook on a new document:
outputNodes skip it, otherwise a found parent gives parent.depth + 1
and a missing parent leaves the schema default 0. -/
def newNodeDepth (store : List NodeDoc) (req : CreateReq) : Nat :=
  if req.type = "outputNode" then 0
  else
    match req.parentId with
    | some p =>
      match store.find? (fun n => n.id = p) with
      | some parent => parent.depth + 1
      | none => 0
    | none => 0

/-- The document built and saved by the create handler. -/
def newNodeDoc (store : List NodeDoc) (callerId newId : String) (req : CreateReq) : NodeDoc :=
  { id := newId
  , userId := callerId
  , horizonId := req.horizonId
  , type := req.type
  , parentId := req.parentId
  , blockId := none
  , children := []
  , inputNodeIds := req.inputNodeIds
  , childNodeIds := if req.type = "block" then req.childNodes else []
  , depth := newNodeDepth store req
  , position := req.position
  , dataPayload := req.data
  , dataOutput := none
  , selected := false
  , isActive := true
  , executionOrder := req.executionOrder }

/-- Success path of the create handler: append the saved node, apply
the $addToSet on the declared parent, and persist the horizon with its
recomputed nodeCount (itself subject to the pre-save hook). -/
def createNodeOk (horizons : List HorizonDoc) (store : List NodeDoc)
    (callerId : String) (req : CreateReq) (newId : String) (horizon : HorizonDoc) :
    List NodeDoc × List HorizonDoc :=
  let node := newNodeDoc store callerId newId req
  let s1 := store ++ [node]
  let s2 :=
    match req.parentId with
    | some p =>
      s1.map (fun n =>
        if n.id = p then
          { n with children := if newId ∈ n.children then n.children else n.children ++ [newId] }
        else n)
    | none => s1
  let hs1 := horizons.map (fun g =>
    if g.id = horizon.id then
      horizonPreSave false
        { g with stats := { g.stats with nodeCount := countActive s2 req.horizonId } }
    else g)
  (s2, hs1)

/-- POST /nodes: validation of required fields, active-horizon lookup,
editor access check, then the success path.  The declared parent is
never validated: the $addToSet into it is a no-op when no such document
exists. -/
def createNodeRoute (horizons : List HorizonDoc) (store : List NodeDoc)
    (callerId : String) (req : CreateReq) (newId : String) :
    Except ApiErr (List NodeDoc × List HorizonDoc) :=
  if req.horizonId = "" ∨ req.type = "" then .error .validation
  else
    match horizons.find? (fun h => h.id = req.horizonId ∧ h.isActive) with
    | none => .error .notFound
    | some horizon =>
      if hasAccess horizon callerId true = false then .error .forbidden
      else .ok (createNodeOk horizons store callerId req newId horizon)

/-! ## Output node save (AI proxy, part_009)

After an agent run, the proxy saves a fresh outputNode under the agent,
marks every other active outputNode of that agent inactive, and resets
the children array of the agent to exactly the new output id. -/
def saveOutputNode (store : List NodeDoc) (hid aid : String) (newOut : NodeDoc) :
    List NodeDoc :=
  let s1 := store ++ [newOut]
  let oldIds :=
    ((s1.filter (fun n =>
        n.horizonId = hid ∧ n.parentId = some aid ∧ n.type = "outputNode" ∧ n.isActive)).filter
      (fun n => n.id ≠ newOut.id)).map NodeDoc.id
  let s2 := s1.map (fun n => if n.id ∈ oldIds then { n with isActive := false } else n)
  s2.map (fun n => if n.id = aid then { n with children := [newOut.id] } else n)

/-! ## Concrete stores used to exercise the operations -/

/-- A default node document: root, active, no references. -/
def baseNode (i hid : String) : NodeDoc :=
  { id := i
  , userId := "u1"
  , horizonId := hid
  , type := "customNode"
  , parentId := none
  , blockId := none
  , children := []
  , inputNodeIds := []
  , childNodeIds := []
  , depth := 0
  , position := { x := 0, y := 0 }
  , dataPayload := ""
  , dataOutput := none
  , selected := false
  , isActive := true
  , executionOrder := 0 }

/-- Two active nodes of workspace W whose parentId fields form a cycle:
A is the child of B and B is the child of A. -/
def cycStore : List NodeDoc :=
  [ { baseNode "A" "W" with parentId := some "B" }
  , { baseNode "B" "W" with parentId := some "A" } ]

/-- Chain A then B under A then C under B, all active in workspace W. -/
def chainStore : List NodeDoc :=
  [ { baseNode "A" "W" with children := ["B"] }
  , { baseNode "B" "W" with parentId := some "A", children := ["C"], depth := 1 }
  , { baseNode "C" "W" with parentId := some "B", depth := 2 } ]

/-- A root node plus a node whose stored parentId references the
nonexistent id ghost, simulating corruption. -/
def ghostStore : List NodeDoc :=
  [ baseNode "A" "W"
  , { baseNode "B" "W" with parentId := some "ghost", depth := 1 } ]

/-- One agent node whose children array names its current output O3,
with three outputNodes all parentId-linked to it. -/
def outputAgent : NodeDoc :=
  { baseNode "A" "W" with type := "agentNode", children := ["O3"] }

def outputNodes : List NodeDoc :=
  [ { baseNode "O1" "W" with type := "outputNode", parentId := some "A" }
  , { baseNode "O2" "W" with type := "outputNode", parentId := some "A" }
  , { baseNode "O3" "W" with type := "outputNode", parentId := some "A" } ]

/-- A pair where both the parentId pass and the inputNodeIds pass would
produce the edge P to Q. -/
def dedupStore : List NodeDoc :=
  [ baseNode "P" "W"
  , { baseNode "Q" "W" with parentId := some "P", inputNodeIds := ["P"] } ]

/-- Horizon W owned by u1, empty embedded nodes array, editor-shared
with u2. -/
def demoHorizon : HorizonDoc :=
  { id := "W"
  , userId := "u1"
  , nodes := []
  , availableAgents := []
  , portfolios := []
  , sharedWith := [("u2", true)]
  , isPublic := false
  , isActive := true
  , stats := { nodeCount := 0, edgeCount := 0, agentCount := 0, portfolioCount := 0 }
  , version := 1 }

/-- Store for the stats claim: one active node of W carrying a parent
reference. -/
def statsStore : List NodeDoc :=
  [ { baseNode "X" "W" with parentId := some "A" } ]

/-- Client submission matching statsStore. -/
def statsSubs : List SubmittedNode :=
  [ { id := "X", type := "customNode", position := { x := 0, y := 0 }, data := "", selected := false } ]

/-- Create request declaring the nonexistent parent ghost. -/
def ghostReq : CreateReq :=
  { horizonId := "W"
  , type := "customNode"
  , parentId := some "ghost"
  , position := { x := 0, y := 0 }
  , data := ""
  , executionOrder := 0
  , inputNodeIds := []
  , childNodes := [] }

/-- Submission that moves node X, issued by the editor u2 who does not
own the stored document. -/
def foreignSubs : List SubmittedNode :=
  [ { id := "X", type := "customNode", position := { x := 5, y := 5 }, data := "", selected := false } ]

/-! ## Theorems -/

/-- C1: Node.findDescendants carries no visited set, so on a parentId
cycle the worklist never empties: however much fuel the loop is given,
it is still running.  The two-node cycle of cycStore makes the call
findDescendants(A, W) diverge, refuting the claimed cycle safety. -/
theorem findDescendants_cycle_diverges :
    ∀ fuel, findDescendants cycStore "A" "W" fuel = none := by
  have key : ∀ fuel (queue acc : List String), queue ≠ [] →
      (∀ x ∈ queue, x = "A" ∨ x = "B") →
      findDescendantsAux cycStore "W" fuel queue acc = none := by
    intro fuel
    induction fuel with
    | zero =>
      intro queue acc hne _
      match queue, hne with
      | x :: rest, _ => rfl
    | succ k ih =>
      intro queue acc hne hmem
      match queue, hne with
      | cur :: rest, _ =>
        show findDescendantsAux cycStore "W" k
          (rest ++ childIdsOf cycStore "W" cur) (acc ++ childIdsOf cycStore "W" cur) = none
        rcases hmem cur (List.mem_cons_self cur rest) with hc | hc <;> subst hc
        · rw [show childIdsOf cycStore "W" "A" = ["B"] from rfl]
          refine ih _ _ (by simp) ?_
          intro x hx
          rcases List.mem_append.mp hx with hx | hx
          · exact hmem x (List.mem_cons_of_mem _ hx)
          · right; simpa using hx
        · rw [show childIdsOf cycStore "W" "B" = ["A"] from rfl]
          refine ih _ _ (by simp) ?_
          intro x hx
          rcases List.mem_append.mp hx with hx | hx
          · exact hmem x (List.mem_cons_of_mem _ hx)
          · left; simpa using hx
  intro fuel
  exact key fuel ["A"] [] (by simp) (by intro x hx; left; simpa using hx)

/-- C7 counterexample: a save of workspace W with one active node X
that carries a parent reference.  The handler computes nodeCount 1 and
edgeCount 1 from the collection, but the persisted horizon document
carries nodeCount 0 (the embedded nodes array is empty) and edgeCount 0
because the pre-save hook overwrites both, refuting the claim at this
input. -/
theorem putHorizon_stats_overwritten_cex :
    putHorizonRoute statsStore demoHorizon "u1" statsSubs
        = some (statsStore, { demoHorizon with version := 2 }) ∧
    countActive statsStore "W" = 1 ∧
    countActiveWithParent statsStore "W" = 1 ∧
    ¬ (({ demoHorizon with version := 2 } : HorizonDoc).stats.nodeCount
          = countActive statsStore "W" ∧
        ({ demoHorizon with version := 2 } : HorizonDoc).stats.edgeCount
          = countActiveWithParent statsStore "W") := by
  decide

/-- C7 amended: whenever the PUT handler completes, the persisted stats
are the ones the pre-save hook recomputes — nodeCount is the length of
the embedded horizon.nodes array (untouched by the nodes sync) and
edgeCount is reset to 0 — not the collection-derived counts the handler
assigned just before saving. -/
theorem putHorizon_persisted_stats (store : List NodeDoc) (h : HorizonDoc)
    (callerId : String) (subs : List SubmittedNode) (store1 : List NodeDoc)
    (h1 : HorizonDoc)
    (hok : putHorizonRoute store h callerId subs = some (store1, h1)) :
    h1.stats.nodeCount = h.nodes.length ∧ h1.stats.edgeCount = 0 := by
  unfold putHorizonRoute at hok
  split at hok
  · exact absurd hok (by simp)
  · split at hok
    · exact absurd hok (by simp)
    · split at hok
      · exact absurd hok (by simp)
      · rename_i heq
        have : h1 = putHorizonStatsSave h store1 := by
          have := hok
          simp only [Option.some.injEq, Prod.mk.injEq] at this
          obtain ⟨h1', h2'⟩ := this
          subst h1'
          exact h2'.symm
        subst this
        constructor <;> rfl

/-- C7 amended witness: the concrete save above satisfies the amended
statement. -/
theorem putHorizon_persisted_stats_witness :
    (({ demoHorizon with version := 2 } : HorizonDoc)).stats.nodeCount
        = demoHorizon.nodes.length ∧
    (({ demoHorizon with version := 2 } : HorizonDoc)).stats.edgeCount = 0 :=
  putHorizon_persisted_stats statsStore demoHorizon "u1" statsSubs statsStore
    { demoHorizon with version := 2 } (by decide)

/-- C8 counterexample: creating a node in the active workspace W while
declaring the nonexistent parent ghost does not fail with NotFound; the
handler answers created and stores the node with the dangling parentId,
refuting the parent-validation half of the claim. -/
theorem createNode_ghost_parent_cex :
    (createNodeRoute [demoHorizon] [] "u1" ghostReq "N1").toOption.map
        (fun p => p.1.map (fun n => (n.id, n.parentId, n.isActive)))
      = some [("N1", some "ghost", true)] ∧
    ((createNodeRoute [demoHorizon] [] "u1" ghostReq "N1").toOption.isSome = true) := by
  decide

/-- C8 amended: with the required fields present, createNode fails with
NotFound exactly when no active horizon matches the named workspace id
(and an error response creates nothing); when the workspace lookup and
the editor access check succeed, creation always succeeds and the new
node is stored with the declared parentId as given — the parent is
never validated. -/
theorem createNode_checks (horizons : List HorizonDoc) (store : List NodeDoc)
    (callerId : String) (req : CreateReq) (newId : String)
    (hh : req.horizonId ≠ "") (ht : req.type ≠ "") :
    (createNodeRoute horizons store callerId req newId = Except.error ApiErr.notFound ↔
      ∀ h ∈ horizons, ¬ (h.id = req.horizonId ∧ h.isActive = true)) ∧
    (∀ horizon, horizons.find? (fun h => h.id = req.horizonId ∧ h.isActive) = some horizon →
      hasAccess horizon callerId true = true →
      ∃ pr, createNodeRoute horizons store callerId req newId = Except.ok pr ∧
        ∃ n ∈ pr.1, n.id = newId ∧ n.parentId = req.parentId) := by
  have hval : ¬ (req.horizonId = "" ∨ req.type = "") := by simp [hh, ht]
  constructor
  · constructor
    · intro hres
      cases hfind : horizons.find? (fun h => h.id = req.horizonId ∧ h.isActive) with
      | none =>
        intro h hmem
        simpa using List.find?_eq_none.mp hfind h hmem
      | some horizon =>
        exfalso
        unfold createNodeRoute at hres
        rw [if_neg hval, hfind] at hres
        dsimp only at hres
        by_cases hacc : hasAccess horizon callerId true = false
        · rw [if_pos hacc] at hres
          simp at hres
        · rw [if_neg hacc] at hres
          simp at hres
    · intro hall
      have hfind : horizons.find? (fun h => h.id = req.horizonId ∧ h.isActive) = none := by
        apply List.find?_eq_none.mpr
        intro x hx
        simpa using hall x hx
      unfold createNodeRoute
      rw [if_neg hval, hfind]
  · intro horizon hfind hacc
    refine ⟨createNodeOk horizons store callerId req newId horizon, ?_, ?_⟩
    · unfold createNodeRoute
      rw [if_neg hval, hfind]
      dsimp only
      rw [if_neg (by simp [hacc])]
    · cases hp : req.parentId with
      | none =>
        refine ⟨newNodeDoc store callerId newId req, ?_, rfl, by simp [newNodeDoc, hp]⟩
        simp [createNodeOk, hp]
      | some p =>
        simp only [createNodeOk, hp]
        refine ⟨_, List.mem_map.mpr ⟨newNodeDoc store callerId newId req, by simp, rfl⟩, ?_, ?_⟩
        · dsimp only
          split <;> rfl
        · dsimp only
          split <;> simp [newNodeDoc, hp]

/-- C8 amended witness: the ghost-parent request against the concrete
workspace discharges both halves: the NotFound characterization and the
successful creation carrying the declared parent. -/
theorem createNode_checks_witness :
    ∃ pr, createNodeRoute [demoHorizon] [] "u1" ghostReq "N1" = Except.ok pr ∧
      ∃ n ∈ pr.1, n.id = "N1" ∧ n.parentId = some "ghost" :=
  (createNode_checks [demoHorizon] [] "u1" ghostReq "N1" (by decide) (by decide)).2
    demoHorizon (by decide) (by decide)

/-! Shared facts about the orphan repair pass. -/

theorem eh_map_eq_self {α : Type} {l : List α} {f : α → α} (h : ∀ x ∈ l, f x = x) :
    l.map f = l := by
  rw [show l.map f = l.map id from List.map_congr_left h, List.map_id]

theorem repairFun_id (store : List NodeDoc) (hid : String) (n : NodeDoc) :
    (repairFun store hid n).id = n.id := by
  unfold repairFun
  split <;> rfl

theorem repairFun_isActive (store : List NodeDoc) (hid : String) (n : NodeDoc) :
    (repairFun store hid n).isActive = n.isActive := by
  unfold repairFun
  split <;> rfl

theorem repairFun_horizonId (store : List NodeDoc) (hid : String) (n : NodeDoc) :
    (repairFun store hid n).horizonId = n.horizonId := by
  unfold repairFun
  split <;> rfl

theorem activeNodesIn_repair (store : List NodeDoc) (hid : String) :
    activeNodesIn (repairOrphans store hid) hid
      = (activeNodesIn store hid).map (repairFun store hid) := by
  unfold activeNodesIn repairOrphans
  rw [List.filter_map]
  congr 1
  apply List.filter_congr
  intro a _
  simp [Function.comp, repairFun_horizonId, repairFun_isActive]

theorem activeIdsIn_repair (store : List NodeDoc) (hid : String) :
    activeIdsIn (repairOrphans store hid) hid = activeIdsIn store hid := by
  unfold activeIdsIn
  rw [activeNodesIn_repair, List.map_map]
  apply List.map_congr_left
  intro a _
  simp [Function.comp, repairFun_id]

theorem mem_activeIdsIn {store : List NodeDoc} {hid p : String} :
    p ∈ activeIdsIn store hid ↔
      ∃ m ∈ store, m.id = p ∧ m.horizonId = hid ∧ m.isActive = true := by
  unfold activeIdsIn activeNodesIn
  simp only [List.mem_map, List.mem_filter, decide_eq_true_eq]
  constructor
  · rintro ⟨m, ⟨hm, hh, ha⟩, hpm⟩
    exact ⟨m, hm, hpm, hh, ha⟩
  · rintro ⟨m, hm, hpm, hh, ha⟩
    exact ⟨m, ⟨hm, hh, ha⟩, hpm⟩

theorem mem_nodesToClean {store : List NodeDoc} {hid : String} {n : NodeDoc}
    (hn : n ∈ store) (hact : n.isActive = true) (hhor : n.horizonId = hid)
    {p : String} (hp : n.parentId = some p) (hpn : ¬ p ∈ activeIdsIn store hid) :
    n ∈ nodesToClean store hid := by
  unfold nodesToClean
  rw [List.mem_filter]
  refine ⟨?_, ?_⟩
  · unfold activeNodesIn
    rw [List.mem_filter]
    exact ⟨hn, by simp [hhor, hact]⟩
  · unfold danglingParent
    rw [hp]
    simp [hpn]

theorem repaired_no_dangling (store : List NodeDoc) (hid : String) :
    ∀ n ∈ repairOrphans store hid, n.isActive = true → n.horizonId = hid →
      ∀ p, n.parentId = some p → p ∈ activeIdsIn store hid := by
  intro n hn hact hhor p hp
  unfold repairOrphans at hn
  obtain ⟨x, hx, hfx⟩ := List.mem_map.mp hn
  by_cases hc : x.id ∈ cleanIds store hid ∧ x.horizonId = hid ∧ x.isActive = true
  · have hnone : n.parentId = none := by
      rw [← hfx]
      unfold repairFun
      rw [if_pos hc]
    rw [hnone] at hp
    simp at hp
  · have hnx : n = x := by
      rw [← hfx]
      unfold repairFun
      rw [if_neg hc]
    subst hnx
    by_contra hpn
    apply hc
    refine ⟨?_, hhor, hact⟩
    exact List.mem_map_of_mem _ (mem_nodesToClean hx hact hhor hp hpn)

theorem sound_of_nil_clean (store : List NodeDoc) (hid : String)
    (h : nodesToClean store hid = []) :
    ∀ n ∈ store, n.isActive = true → n.horizonId = hid →
      ∀ p, n.parentId = some p → p ∈ activeIdsIn store hid := by
  intro n hn hact hhor p hp
  by_contra hpn
  have := mem_nodesToClean hn hact hhor hp hpn
  rw [h] at this
  simp at this

theorem nil_clean_of_sound (store : List NodeDoc) (hid : String)
    (h : ∀ n ∈ store, n.isActive = true → n.horizonId = hid →
      ∀ p, n.parentId = some p → p ∈ activeIdsIn store hid) :
    nodesToClean store hid = [] := by
  unfold nodesToClean
  rw [List.filter_eq_nil_iff]
  intro a ha
  unfold activeNodesIn at ha
  rw [List.mem_filter] at ha
  obtain ⟨ha, hprop⟩ := ha
  simp only [decide_eq_true_eq] at hprop
  unfold danglingParent
  cases hpa : a.parentId with
  | none => simp
  | some p =>
    have := h a ha hprop.2 hprop.1 p hpa
    simp [this]

theorem repair_eq_self_of_nil_clean (store : List NodeDoc) (hid : String)
    (h : nodesToClean store hid = []) : repairOrphans store hid = store := by
  unfold repairOrphans
  apply eh_map_eq_self
  intro x _
  unfold repairFun
  rw [if_neg]
  rintro ⟨hc, -⟩
  unfold cleanIds at hc
  rw [h] at hc
  simp at hc

/-- C6: running the orphan repair twice performs no corrective writes
the second time — after one pass no active node of the workspace is
left with a dangling parentId, so the second pass finds nothing to
clean and rewrites nothing — and on a workspace whose active nodes all
have valid active parents the pass finds nothing to clean and leaves
the store untouched. -/
theorem repairOrphans_idempotent (store : List NodeDoc) (hid : String) :
    nodesToClean (repairOrphans store hid) hid = [] ∧
    repairOrphans (repairOrphans store hid) hid = repairOrphans store hid ∧
    ((∀ n ∈ store, n.isActive = true → n.horizonId = hid →
        ∀ p, n.parentId = some p → p ∈ activeIdsIn store hid) →
      nodesToClean store hid = [] ∧ repairOrphans store hid = store) := by
  have h1 : nodesToClean (repairOrphans store hid) hid = [] := by
    apply nil_clean_of_sound
    intro n hn hact hhor p hp
    rw [activeIdsIn_repair]
    exact repaired_no_dangling store hid n hn hact hhor p hp
  refine ⟨h1, repair_eq_self_of_nil_clean _ _ h1, fun hsound => ?_⟩
  have h2 := nil_clean_of_sound store hid hsound
  exact ⟨h2, repair_eq_self_of_nil_clean _ _ h2⟩

/-- C6 witness: on the sound chain store the repair pass finds nothing
to clean and performs no writes. -/
theorem repairOrphans_idempotent_witness :
    nodesToClean chainStore "W" = [] ∧ repairOrphans chainStore "W" = chainStore :=
  (repairOrphans_idempotent chainStore "W").2.2 (by decide)

theorem view_snd_eq (store : List NodeDoc) (hid : String) :
    (getWorkspaceView store hid).2
      = if nodesToClean store hid = [] then store else repairOrphans store hid := rfl

theorem view_fst_eq (store : List NodeDoc) (hid : String) :
    (getWorkspaceView store hid).1
      = (activeNodesIn (getWorkspaceView store hid).2 hid).map
          (toRespNode (activeIdsIn (getWorkspaceView store hid).2 hid)) := by
  unfold getWorkspaceView
  dsimp only
  split <;> rfl

/-- C3: after getWorkspaceView, no response node carries a dangling
parentId (a non-null parentId always references an active node of the
workspace in the persisted store), the persisted store itself has no
active node of the workspace with a dangling parentId, and every
stored active node whose parentId was dangling has been persisted with
parentId null. -/
theorem getWorkspaceView_no_dangling (store : List NodeDoc) (hid : String) :
    (∀ r ∈ (getWorkspaceView store hid).1, ∀ p, r.parentId = some p →
        ∃ m ∈ (getWorkspaceView store hid).2,
          m.id = p ∧ m.horizonId = hid ∧ m.isActive = true) ∧
    (∀ n ∈ (getWorkspaceView store hid).2, n.isActive = true → n.horizonId = hid →
        ∀ p, n.parentId = some p →
          p ∈ activeIdsIn (getWorkspaceView store hid).2 hid) ∧
    (∀ n ∈ store, n.isActive = true → n.horizonId = hid →
        danglingParent (activeIdsIn store hid) n = true →
        ∃ m ∈ (getWorkspaceView store hid).2, m.id = n.id ∧ m.parentId = none) := by
  have hpost : ∀ n ∈ (getWorkspaceView store hid).2, n.isActive = true →
      n.horizonId = hid → ∀ p, n.parentId = some p →
        p ∈ activeIdsIn (getWorkspaceView store hid).2 hid := by
    rw [view_snd_eq]
    split
    · rename_i hnil
      intro n hn ha hh p hp
      exact sound_of_nil_clean store hid hnil n hn ha hh p hp
    · intro n hn ha hh p hp
      rw [activeIdsIn_repair]
      exact repaired_no_dangling store hid n hn ha hh p hp
  refine ⟨?_, hpost, ?_⟩
  · intro r hr p hp
    rw [view_fst_eq] at hr
    obtain ⟨n, _, hrn⟩ := List.mem_map.mp hr
    have hpv : p ∈ activeIdsIn (getWorkspaceView store hid).2 hid := by
      rw [← hrn] at hp
      unfold toRespNode at hp
      dsimp only at hp
      cases hq : n.parentId with
      | none => rw [hq] at hp; simp at hp
      | some q =>
        rw [hq] at hp
        dsimp only at hp
        by_cases hv : q ∈ activeIdsIn (getWorkspaceView store hid).2 hid
        · rw [if_pos hv] at hp
          injection hp with hqp
          rw [← hqp]
          exact hv
        · rw [if_neg hv] at hp
          simp at hp
    obtain ⟨m, hm, hmp, hmh, hma⟩ := mem_activeIdsIn.mp hpv
    exact ⟨m, hm, hmp, hmh, hma⟩
  · intro n hn ha hh hd
    obtain ⟨q, hq, hqn⟩ : ∃ q, n.parentId = some q ∧ ¬ q ∈ activeIdsIn store hid := by
      unfold danglingParent at hd
      cases hq : n.parentId with
      | none => rw [hq] at hd; simp at hd
      | some q =>
        rw [hq] at hd
        exact ⟨q, rfl, by simpa using hd⟩
    have hmem := mem_nodesToClean hn ha hh hq hqn
    have hne : nodesToClean store hid ≠ [] := by
      intro hnil
      rw [hnil] at hmem
      simp at hmem
    have hsnd : (getWorkspaceView store hid).2 = repairOrphans store hid := by
      rw [view_snd_eq, if_neg hne]
    rw [hsnd]
    refine ⟨repairFun store hid n, List.mem_map_of_mem _ hn, repairFun_id store hid n, ?_⟩
    unfold repairFun
    rw [if_pos ⟨List.mem_map_of_mem _ hmem, hh, ha⟩]

/-- C3 witness: in the ghost-parent store, the read call reports node B
with its corrupt parent reference cleared and persists the null. -/
theorem getWorkspaceView_no_dangling_witness :
    ∃ m ∈ (getWorkspaceView ghostStore "W").2,
      m.id = ({ baseNode "B" "W" with parentId := some "ghost", depth := 1 } : NodeDoc).id ∧
      m.parentId = none :=
  (getWorkspaceView_no_dangling ghostStore "W").2.2
    { baseNode "B" "W" with parentId := some "ghost", depth := 1 }
    (by decide) (by decide) (by decide) (by decide)

/-! Facts about the delete cascade. -/

theorem eh_map_pres_inactive {l : List NodeDoc} {f : NodeDoc → NodeDoc}
    (hf : ∀ m ∈ l, (f m).id = m.id ∧ (f m).isActive = m.isActive)
    {Q : String → Prop} (hP : ∀ n ∈ l, Q n.id → n.isActive = false) :
    ∀ n ∈ l.map f, Q n.id → n.isActive = false := by
  intro n hn hq
  obtain ⟨m, hm, hfm⟩ := List.mem_map.mp hn
  obtain ⟨hi, ha⟩ := hf m hm
  subst hfm
  rw [hi] at hq
  rw [ha]
  exact hP m hm hq

theorem cascadeDeactivate_inactive (store : List NodeDoc) (ids : List String) :
    ∀ n ∈ cascadeDeactivate store ids, n.id ∈ ids → n.isActive = false := by
  intro n hn hq
  obtain ⟨m, hm, hfm⟩ := List.mem_map.mp hn
  subst hfm
  by_cases hc : m.id ∈ ids
  · rw [if_pos hc]
  · rw [if_neg hc] at hq ⊢
    exact absurd hq hc

/-- C2: whenever the delete handler completes, the target node and
every id that findDescendants reported immediately before the delete
are inactive in the persisted store: the whole set is deactivated in
one updateMany and none of the later writes of the handler touches
isActive. -/
theorem deleteNode_cascade_inactive (store : List NodeDoc) (nid : String)
    (fuel : Nat) (node : NodeDoc) (ds : List String) (store1 : List NodeDoc)
    (hfind : store.find? (fun n => n.id = nid ∧ n.isActive) = some node)
    (hds : findDescendants store nid node.horizonId fuel = some ds)
    (hdel : deleteNodeRoute store nid fuel = some store1) :
    ∀ n ∈ store1, (n.id = nid ∨ n.id ∈ ds) → n.isActive = false := by
  unfold deleteNodeRoute at hdel
  rw [hfind] at hdel
  dsimp only at hdel
  rw [hds] at hdel
  dsimp only at hdel
  injection hdel with hdel
  subst hdel
  have hbase : ∀ n ∈ cascadeDeactivate store (nid :: ds),
      n.id ∈ nid :: ds → n.isActive = false :=
    cascadeDeactivate_inactive store (nid :: ds)
  have hclear : ∀ n ∈ clearParentRefs (cascadeDeactivate store (nid :: ds)) node.horizonId nid,
      n.id ∈ nid :: ds → n.isActive = false := by
    apply eh_map_pres_inactive _ hbase
    intro m _
    constructor <;> (split <;> rfl)
  have hs3 : ∀ n ∈ (match node.parentId with
      | some p => pullFromChildren
          (clearParentRefs (cascadeDeactivate store (nid :: ds)) node.horizonId nid) p nid
      | none => clearParentRefs (cascadeDeactivate store (nid :: ds)) node.horizonId nid),
      n.id ∈ nid :: ds → n.isActive = false := by
    cases node.parentId with
    | none => exact hclear
    | some p =>
      apply eh_map_pres_inactive _ hclear
      intro m _
      constructor <;> (split <;> rfl)
  intro n hn hq
  refine eh_map_pres_inactive ?_ hs3 n hn (by simpa using hq)
  intro m _
  constructor <;> (split <;> rfl)

/-- C2 witness: deleting the root of the three-node chain reports
descendants B and C, and the persisted copy of C is inactive. -/
theorem deleteNode_cascade_inactive_witness :
    ({ baseNode "C" "W" with parentId := some "B", depth := 2, isActive := false } : NodeDoc).isActive
      = false :=
  deleteNode_cascade_inactive chainStore "A" 9
    { baseNode "A" "W" with children := ["B"] } ["B", "C"]
    [ { baseNode "A" "W" with children := ["B"], isActive := false }
    , { baseNode "B" "W" with parentId := some "A", children := ["C"], depth := 1, isActive := false }
    , { baseNode "C" "W" with parentId := some "B", depth := 2, isActive := false } ]
    (by decide) (by decide) (by decide)
    { baseNode "C" "W" with parentId := some "B", depth := 2, isActive := false }
    (by decide) (by decide)

/-! Facts about edge synthesis. -/

theorem eh_foldl_lookup_skip (i : String) :
    ∀ (xs : List NodeDoc) (acc : Option NodeDoc), (∀ m ∈ xs, ¬ m.id = i) →
      xs.foldl (fun acc n => if n.id = i then some n else acc) acc = acc := by
  intro xs
  induction xs with
  | nil => intro acc _; rfl
  | cons x t ih =>
    intro acc hall
    have hx : ¬ x.id = i := hall x (List.mem_cons_self x t)
    show t.foldl (fun acc n => if n.id = i then some n else acc) (if x.id = i then some x else acc) = acc
    rw [if_neg hx]
    exact ih acc (fun m hm => hall m (List.mem_cons_of_mem _ hm))

theorem lookupNode_eq {ns : List NodeDoc} {i : String} {n : NodeDoc}
    (hnd : (ns.map NodeDoc.id).Nodup) (hn : n ∈ ns) (hi : n.id = i) :
    lookupNode ns i = some n := by
  induction ns with
  | nil => cases hn
  | cons x t ih =>
    rw [List.map_cons, List.nodup_cons] at hnd
    rcases List.mem_cons.mp hn with hx | ht
    · subst hx
      show t.foldl (fun acc m => if m.id = i then some m else acc) (if n.id = i then some n else none) = some n
      rw [if_pos hi]
      apply eh_foldl_lookup_skip
      intro m hm hmi
      exact hnd.1 (by rw [hi, ← hmi]; exact List.mem_map_of_mem _ hm)
    · show t.foldl (fun acc m => if m.id = i then some m else acc) (if x.id = i then some x else none) = some n
      have hxne : ¬ x.id = i := by
        intro hxi
        exact hnd.1 (by rw [hxi, ← hi]; exact List.mem_map_of_mem _ ht)
      rw [if_neg hxne]
      exact ih hnd.2 ht

theorem addInputEdges_no_inputs (ns : List NodeDoc) :
    ∀ (l : List NodeDoc) (acc : List Edge), (∀ n ∈ l, n.inputNodeIds = []) →
      l.foldl (fun acc n => n.inputNodeIds.foldl (inputEdgeStep ns n.id) acc) acc = acc := by
  intro l
  induction l with
  | nil => intro acc _; rfl
  | cons x t ih =>
    intro acc hall
    show t.foldl (fun acc n => n.inputNodeIds.foldl (inputEdgeStep ns n.id) acc)
        (x.inputNodeIds.foldl (inputEdgeStep ns x.id) acc) = acc
    rw [hall x (List.mem_cons_self x t)]
    exact ih acc (fun m hm => hall m (List.mem_cons_of_mem _ hm))

theorem addInputEdges_eq_of_no_inputs (ns : List NodeDoc) (acc : List Edge)
    (h : ∀ n ∈ ns, n.inputNodeIds = []) : addInputEdges ns acc = acc :=
  addInputEdges_no_inputs ns ns acc h

theorem eh_filterMap_single {α β : Type} (f : α → Option β) :
    ∀ (l : List α) (x : α) (b : β), l.Nodup → x ∈ l → f x = some b →
      (∀ y ∈ l, y ≠ x → f y = none) → l.filterMap f = [b] := by
  intro l
  induction l with
  | nil => intro x b _ hx; cases hx
  | cons z t ih =>
    intro x b hnd hx hfx hothers
    rw [List.nodup_cons] at hnd
    rcases List.mem_cons.mp hx with hz | ht
    · subst hz
      rw [List.filterMap_cons, hfx]
      have : t.filterMap f = [] := by
        rw [List.filterMap_eq_nil_iff]
        intro y hy
        refine hothers y (List.mem_cons_of_mem _ hy) ?_
        intro hyx
        exact hnd.1 (hyx ▸ hy)
      rw [this]
    · have hzx : z ≠ x := by
        intro hzx
        exact hnd.1 (hzx ▸ ht)
      rw [List.filterMap_cons, hothers z (List.mem_cons_self z t) hzx]
      exact ih x b hnd.2 ht hfx (fun y hy => hothers y (List.mem_cons_of_mem _ hy))

/-- C4: the output-save flow resets the agent children array to
exactly the id of the newly created output, and edge synthesis over an
agent together with any collection of its parentId-linked outputNodes
emits exactly one agent-to-output edge, the one whose target the agent
children array names; every other output, although still
parentId-linked, gets no edge. -/
theorem buildEdges_output_single_current :
    (∀ (store : List NodeDoc) (hid aid : String) (newOut : NodeDoc),
      ∀ m ∈ saveOutputNode store hid aid newOut, m.id = aid → m.children = [newOut.id]) ∧
    (∀ (a : NodeDoc) (outs : List NodeDoc) (cur : String) (o : NodeDoc),
      ((a :: outs).map NodeDoc.id).Nodup →
      a.type = "agentNode" → a.parentId = none → a.inputNodeIds = [] →
      a.children = [cur] →
      (∀ x ∈ outs, x.type = "outputNode" ∧ x.parentId = some a.id ∧ x.inputNodeIds = []) →
      o ∈ outs → o.id = cur →
      buildEdgesFromNodes (a :: outs) = [mkParentEdge a.id cur o.dataOutput]) := by
  constructor
  · intro store hid aid newOut m hm hmid
    unfold saveOutputNode at hm
    obtain ⟨x, _, hfx⟩ := List.mem_map.mp hm
    by_cases hx : x.id = aid
    · rw [← hfx, if_pos hx]
    · rw [← hfx, if_neg hx] at hmid ⊢
      exact absurd hmid hx
  · intro a outs cur o hnd hty hpar hinp hch houts ho hoid
    have hinp_all : ∀ n ∈ a :: outs, n.inputNodeIds = [] := by
      intro n hn
      rcases List.mem_cons.mp hn with h | h
      · rw [h]; exact hinp
      · exact (houts n h).2.2
    unfold buildEdgesFromNodes
    rw [addInputEdges_eq_of_no_inputs _ _ hinp_all]
    unfold parentEdges
    rw [List.filterMap_cons]
    have hpa : parentEdge (a :: outs) a = none := by
      unfold parentEdge
      rw [hpar]
    rw [hpa]
    have hlook : lookupNode (a :: outs) a.id = some a :=
      lookupNode_eq hnd (List.mem_cons_self a outs) rfl
    have houts_nd : outs.Nodup := by
      rw [List.map_cons, List.nodup_cons] at hnd
      exact hnd.2.of_map
    apply eh_filterMap_single (parentEdge (a :: outs)) outs o
      (mkParentEdge a.id cur o.dataOutput) houts_nd ho
    · unfold parentEdge
      rw [(houts o ho).2.1]
      dsimp only
      rw [if_pos (houts o ho).1, hlook]
      dsimp only
      rw [if_pos ⟨hty, by rw [hch, hoid]; rfl⟩]
      rw [hoid]
    · intro y hy hyo
      unfold parentEdge
      rw [(houts y hy).2.1]
      dsimp only
      rw [if_pos (houts y hy).1, hlook]
      dsimp only
      rw [if_neg]
      rintro ⟨-, hhead⟩
      rw [hch] at hhead
      injection hhead with hcy
      apply hyo
      exact List.inj_on_of_nodup_map hnd (List.mem_cons_of_mem a hy)
        (List.mem_cons_of_mem a ho) (show y.id = o.id by rw [← hcy]; exact hoid.symm)

/-- C4 witness: the agent with three outputs, children naming O3, gets
exactly the single edge from the agent to O3. -/
theorem buildEdges_output_single_current_witness :
    buildEdgesFromNodes (outputAgent :: outputNodes)
      = [mkParentEdge "A" "O3"
          ({ baseNode "O3" "W" with type := "outputNode", parentId := some "A" } : NodeDoc).dataOutput] :=
  buildEdges_output_single_current.2 outputAgent outputNodes "O3"
    { baseNode "O3" "W" with type := "outputNode", parentId := some "A" }
    (by decide) rfl rfl rfl rfl (by decide) (by decide) rfl

theorem eh_foldl_pres {α β : Type} (P : β → Prop) (g : β → α → β)
    (hg : ∀ acc x, P acc → P (g acc x)) :
    ∀ (l : List α) (acc : β), P acc → P (l.foldl g acc) := by
  intro l
  induction l with
  | nil => intro acc h; exact h
  | cons x t ih => intro acc h; exact ih (g acc x) (hg acc x h)

theorem parentEdge_target {ns : List NodeDoc} {n : NodeDoc} {e : Edge}
    (h : parentEdge ns n = some e) : e.target = n.id := by
  unfold parentEdge at h
  split at h
  · exact absurd h (by simp)
  · split at h
    · split at h
      · split at h
        · injection h with h
          rw [← h]
          rfl
        · exact absurd h (by simp)
      · exact absurd h (by simp)
    · injection h with h
      rw [← h]
      rfl

theorem parentEdges_pairwise_target (ns : List NodeDoc)
    (hnd : (ns.map NodeDoc.id).Nodup) :
    List.Pairwise (fun e1 e2 => e1.target ≠ e2.target) (parentEdges ns) := by
  unfold parentEdges
  rw [List.pairwise_filterMap]
  have hids : List.Pairwise (fun a b : NodeDoc => a.id ≠ b.id) ns := by
    rw [List.Nodup, List.pairwise_map] at hnd
    exact hnd
  refine hids.imp ?_
  intro a b hne e1 he1 e2 he2
  rw [parentEdge_target he1, parentEdge_target he2]
  exact hne

theorem inputEdgeStep_pairwise {ns : List NodeDoc} {tgt : String}
    {acc : List Edge} {i : String}
    (h : List.Pairwise (fun e1 e2 => ¬ (e1.source = e2.source ∧ e1.target = e2.target)) acc) :
    List.Pairwise (fun e1 e2 => ¬ (e1.source = e2.source ∧ e1.target = e2.target))
      (inputEdgeStep ns tgt acc i) := by
  unfold inputEdgeStep
  split
  · rename_i hguard
    rw [List.pairwise_append]
    refine ⟨h, by simp, ?_⟩
    intro a ha b hb
    have hb1 : b = mkInputEdge i tgt := by simpa using hb
    subst hb1
    rintro ⟨hs, ht⟩
    have := hguard.1
    rw [List.any_eq_true] at this
    exact this ⟨a, ha, by simp [mkInputEdge] at hs ht; simp [hs, ht]⟩
  · exact h

theorem addInputEdges_pairwise (ns : List NodeDoc) (acc : List Edge)
    (h : List.Pairwise (fun e1 e2 => ¬ (e1.source = e2.source ∧ e1.target = e2.target)) acc) :
    List.Pairwise (fun e1 e2 => ¬ (e1.source = e2.source ∧ e1.target = e2.target))
      (addInputEdges ns acc) := by
  unfold addInputEdges
  refine eh_foldl_pres _ _ ?_ ns acc h
  intro acc n hacc
  refine eh_foldl_pres _ _ ?_ n.inputNodeIds acc hacc
  intro acc i hacc
  exact inputEdgeStep_pairwise hacc

theorem eh_pairwise_filter_le_one {l : List Edge} {s t : String}
    (h : List.Pairwise (fun e1 e2 => ¬ (e1.source = e2.source ∧ e1.target = e2.target)) l) :
    (l.filter (fun e => e.source = s ∧ e.target = t)).length ≤ 1 := by
  induction l with
  | nil => simp
  | cons x xs ih =>
    rw [List.pairwise_cons] at h
    by_cases hx : x.source = s ∧ x.target = t
    · rw [List.filter_cons_of_pos (by simp [hx.1, hx.2])]
      have hnil : xs.filter (fun e => e.source = s ∧ e.target = t) = [] := by
        rw [List.filter_eq_nil_iff]
        intro y hy hpy
        simp only [decide_eq_true_eq] at hpy
        exact h.1 y hy ⟨by rw [hx.1, hpy.1], by rw [hx.2, hpy.2]⟩
      rw [hnil]
      simp
    · rw [List.filter_cons_of_neg (by simpa using hx)]
      exact ih h.2

/-- C5: over a duplicate-free node set, the synthesized edge list
carries at most one edge per (source, target) pair: the parentId pass
emits pairwise-distinct targets, and the inputNodeIds pass refuses any
pair already present in the accumulated list. -/
theorem buildEdges_dedup (ns : List NodeDoc) (hnd : (ns.map NodeDoc.id).Nodup)
    (s t : String) :
    ((buildEdgesFromNodes ns).filter (fun e => e.source = s ∧ e.target = t)).length ≤ 1 := by
  apply eh_pairwise_filter_le_one
  unfold buildEdgesFromNodes
  apply addInputEdges_pairwise
  refine (parentEdges_pairwise_target ns hnd).imp ?_
  intro e1 e2 hne
  rintro ⟨-, ht⟩
  exact hne ht

/-- C5 witness: in the store where Q both has parentId P and lists P
among its inputNodeIds, the pair (P, Q) still yields at most one edge. -/
theorem buildEdges_dedup_witness :
    ((buildEdgesFromNodes dedupStore).filter
        (fun e => e.source = "P" ∧ e.target = "Q")).length ≤ 1 :=
  buildEdges_dedup dedupStore (by decide) "P" "Q"

theorem lookup_isSome_mem {ns : List NodeDoc} {i : String}
    (h : (lookupNode ns i).isSome = true) : i ∈ ns.map NodeDoc.id := by
  by_contra hni
  have hall : ∀ m ∈ ns, ¬ m.id = i := by
    intro m hm hmi
    exact hni (hmi ▸ List.mem_map_of_mem _ hm)
  have : lookupNode ns i = none := eh_foldl_lookup_skip i ns none hall
  rw [this] at h
  simp at h

/-- C10: every edge the synthesis emits either comes from the parentId
pass or has its source present in the supplied node set — an
inputNodeIds entry naming an id outside the list produces no edge. -/
theorem buildEdges_input_source_present (ns : List NodeDoc) :
    ∀ e ∈ buildEdgesFromNodes ns,
      e ∈ parentEdges ns ∨ e.source ∈ ns.map NodeDoc.id := by
  unfold buildEdgesFromNodes addInputEdges
  refine eh_foldl_pres
    (fun acc => ∀ e ∈ acc, e ∈ parentEdges ns ∨ e.source ∈ ns.map NodeDoc.id) _ ?_ ns
    (parentEdges ns) (fun e he => Or.inl he)
  intro acc n hacc
  refine eh_foldl_pres
    (fun acc => ∀ e ∈ acc, e ∈ parentEdges ns ∨ e.source ∈ ns.map NodeDoc.id) _ ?_
    n.inputNodeIds acc hacc
  intro acc i hacc e he
  unfold inputEdgeStep at he
  split at he
  · rename_i hguard
    rcases List.mem_append.mp he with he | he
    · exact hacc e he
    · have : e = mkInputEdge i n.id := by simpa using he
      subst this
      exact Or.inr (lookup_isSome_mem hguard.2)
  · exact hacc e he

/-- C10 witness: the parent edge from P to Q of the dedup store is
covered by the disjunction. -/
theorem buildEdges_input_source_present_witness :
    mkParentEdge "P" "Q" none ∈ parentEdges dedupStore ∨
      (mkParentEdge "P" "Q" none).source ∈ dedupStore.map NodeDoc.id :=
  buildEdges_input_source_present dedupStore (mkParentEdge "P" "Q" none) (by decide)

/-! Facts about the workspace save sync. -/

theorem updateFirst_mem_general {p : NodeDoc → Prop} [DecidablePred p]
    {f : NodeDoc → NodeDoc} :
    ∀ {l : List NodeDoc} {y : NodeDoc}, y ∈ updateFirst p f l →
      y ∈ l ∨ ∃ x ∈ l, p x ∧ y = f x := by
  intro l
  induction l with
  | nil => intro y hy; exact absurd hy (by simp [updateFirst])
  | cons x t ih =>
    intro y hy
    simp only [updateFirst] at hy
    by_cases hpx : p x
    · rw [if_pos hpx] at hy
      rcases List.mem_cons.mp hy with h | h
      · exact Or.inr ⟨x, List.mem_cons_self x t, hpx, h⟩
      · exact Or.inl (List.mem_cons_of_mem _ h)
    · rw [if_neg hpx] at hy
      rcases List.mem_cons.mp hy with h | h
      · exact Or.inl (h ▸ List.mem_cons_self x t)
      · rcases ih h with h1 | ⟨z, hz, hpz, hyz⟩
        · exact Or.inl (List.mem_cons_of_mem _ h1)
        · exact Or.inr ⟨z, List.mem_cons_of_mem _ hz, hpz, hyz⟩

theorem updateFirst_mem_of_not {p : NodeDoc → Prop} [DecidablePred p]
    {f : NodeDoc → NodeDoc} :
    ∀ {l : List NodeDoc} {y : NodeDoc}, y ∈ l → ¬ p y → y ∈ updateFirst p f l := by
  intro l
  induction l with
  | nil => intro y hy; cases hy
  | cons x t ih =>
    intro y hy hpy
    simp only [updateFirst]
    rcases List.mem_cons.mp hy with h | h
    · subst h
      rw [if_neg hpy]
      exact List.mem_cons_self y _
    · by_cases hpx : p x
      · rw [if_pos hpx]
        exact List.mem_cons_of_mem _ h
      · rw [if_neg hpx]
        exact List.mem_cons_of_mem _ (ih h hpy)

theorem updateFirst_first_match {p : NodeDoc → Prop} [DecidablePred p]
    {f : NodeDoc → NodeDoc} :
    ∀ {l : List NodeDoc} {n : NodeDoc}, n ∈ l → p n →
      (∀ m ∈ l, p m → m = n) → f n ∈ updateFirst p f l := by
  intro l
  induction l with
  | nil => intro n hn; cases hn
  | cons x t ih =>
    intro n hn hpn huniq
    simp only [updateFirst]
    by_cases hpx : p x
    · rw [if_pos hpx, huniq x (List.mem_cons_self x t) hpx]
      exact List.mem_cons_self _ _
    · rw [if_neg hpx]
      have hnt : n ∈ t := by
        rcases List.mem_cons.mp hn with h | h
        · exact absurd (h ▸ hpn) hpx
        · exact h
      exact List.mem_cons_of_mem _
        (ih hnt hpn (fun m hm hpm => huniq m (List.mem_cons_of_mem _ hm) hpm))

theorem updateFirst_map_id {p : NodeDoc → Prop} [DecidablePred p]
    {f : NodeDoc → NodeDoc} (hf : ∀ x, (f x).id = x.id) :
    ∀ l : List NodeDoc, (updateFirst p f l).map NodeDoc.id = l.map NodeDoc.id := by
  intro l
  induction l with
  | nil => rfl
  | cons x t ih =>
    simp only [updateFirst]
    by_cases hpx : p x
    · rw [if_pos hpx]
      simp [hf x]
    · rw [if_neg hpx]
      simp [ih]

theorem applySet_id (n : NodeDoc) (sn : SubmittedNode) : (applySet n sn).id = n.id := rfl

theorem applySet_freshDoc (c h : String) (sn : SubmittedNode) :
    applySet (freshDoc c h sn) sn = freshDoc c h sn := rfl

theorem bulk_cons (c h : String) (sn : SubmittedNode) (rest : List SubmittedNode)
    (l : List NodeDoc) :
    bulkUpdateOps c h (sn :: rest) l
      = bulkUpdateOps c h rest
          (updateFirst (fun n => n.id = sn.id ∧ n.userId = c ∧ n.horizonId = h)
            (fun n => applySet n sn) l) := rfl

theorem bulk_mem_pres (c h : String) :
    ∀ (subs : List SubmittedNode) (l : List NodeDoc) (y : NodeDoc),
      y ∈ l → (∀ sn ∈ subs, sn.id ≠ y.id) → y ∈ bulkUpdateOps c h subs l := by
  intro subs
  induction subs with
  | nil => intro l y hy _; exact hy
  | cons sn0 rest ih =>
    intro l y hy hne
    rw [bulk_cons]
    refine ih _ y ?_ (fun sn hsn => hne sn (List.mem_cons_of_mem _ hsn))
    refine updateFirst_mem_of_not hy ?_
    rintro ⟨h1, -⟩
    exact hne sn0 (List.mem_cons_self sn0 rest) h1.symm

theorem bulk_map_id (c h : String) :
    ∀ (subs : List SubmittedNode) (l : List NodeDoc),
      (bulkUpdateOps c h subs l).map NodeDoc.id = l.map NodeDoc.id := by
  intro subs
  induction subs with
  | nil => intro l; rfl
  | cons sn0 rest ih =>
    intro l
    rw [bulk_cons, ih, updateFirst_map_id (fun x => applySet_id x sn0)]

theorem bulk_applies (c h : String) :
    ∀ (subs : List SubmittedNode) (l : List NodeDoc),
      (l.map NodeDoc.id).Nodup → (subs.map SubmittedNode.id).Nodup →
      ∀ sn ∈ subs, ∀ n ∈ l, n.id = sn.id → n.userId = c → n.horizonId = h →
        applySet n sn ∈ bulkUpdateOps c h subs l := by
  intro subs
  induction subs with
  | nil => intro l _ _ sn hsn; cases hsn
  | cons sn0 rest ih =>
    intro l hndl hnds sn hsn n hn hid' huser hhor
    rw [List.map_cons, List.nodup_cons] at hnds
    rw [bulk_cons]
    rcases List.mem_cons.mp hsn with hs0 | hrest
    · subst hs0
      have hmem : applySet n sn ∈ updateFirst
          (fun m => m.id = sn.id ∧ m.userId = c ∧ m.horizonId = h)
          (fun m => applySet m sn) l := by
        refine updateFirst_first_match hn ⟨hid', huser, hhor⟩ ?_
        intro m hm hpm
        exact List.inj_on_of_nodup_map hndl hm hn (by rw [hpm.1, hid'])
      refine bulk_mem_pres c h rest _ _ hmem ?_
      intro sn1 hsn1
      rw [applySet_id, hid']
      intro heq
      exact hnds.1 (heq ▸ List.mem_map_of_mem _ hsn1)
    · refine ih _ ?_ hnds.2 sn hrest n ?_ hid' huser hhor
      · rw [updateFirst_map_id (fun x => applySet_id x sn0)]
        exact hndl
      · refine updateFirst_mem_of_not hn ?_
        rintro ⟨h1, -⟩
        exact hnds.1 (by rw [← h1, hid']; exact List.mem_map_of_mem _ hrest)

theorem bulk_pres_inactive (c h : String) (allsubs : List SubmittedNode)
    (act : List String) :
    ∀ (subs : List SubmittedNode) (l : List NodeDoc),
      (∀ sn ∈ subs, sn ∈ allsubs) →
      (∀ n ∈ l, n.id ∈ act → (∀ sn ∈ allsubs, sn.id ≠ n.id) → n.isActive = false) →
      ∀ n ∈ bulkUpdateOps c h subs l,
        n.id ∈ act → (∀ sn ∈ allsubs, sn.id ≠ n.id) → n.isActive = false := by
  intro subs
  induction subs with
  | nil => intro l _ hbase; exact hbase
  | cons sn0 rest ih =>
    intro l hsub hbase
    rw [bulk_cons]
    refine ih _ (fun sn hsn => hsub sn (List.mem_cons_of_mem _ hsn)) ?_
    intro n hn hact hna
    rcases updateFirst_mem_general hn with hl | ⟨x, _, hpx, hnx⟩
    · exact hbase n hl hact hna
    · exfalso
      apply hna sn0 (hsub sn0 (List.mem_cons_self sn0 rest))
      rw [hnx, applySet_id, hpx.1]

/-- C9 counterexample: workspace W holds the active node X owned by
u1; the editor u2 submits X with a new position.  The sync returns the
store unchanged — the bulk updateOne filters on userId, matches
nothing, and the submitted position 5 is not persisted — refuting the
claim that every submitted id already persisted is updated in place. -/
theorem sync_foreign_owner_cex :
    syncWorkspaceNodes statsStore "u2" "W" foreignSubs = some statsStore ∧
    statsStore.map (fun n => (n.id, n.userId, n.isActive, n.position.x)) = [("X", "u1", true, 0)] ∧
    foreignSubs.map (fun sn => (sn.id, sn.position.x)) = [("X", 5)] := by
  decide

/-- C9 amended: when the save sync succeeds on a duplicate-free store
and submission, (a) every persisted doc whose id was active in the
workspace but absent from the submission ends up inactive, (b) every
submitted id backed by a stored doc whose userId is the caller and
whose horizonId is the workspace has that doc updated in place (type,
position, data, selected, isActive true; a doc failing the
userId/horizonId filter is left alone), and (c) every submitted id
stored nowhere is inserted as a fresh active doc under the
client-supplied id; a submitted id existing only as an inactive or
foreign-workspace doc makes insertMany fail instead. -/
theorem syncWorkspaceNodes_spec (store : List NodeDoc) (callerId hid : String)
    (subs : List SubmittedNode) (res : List NodeDoc)
    (hndstore : (store.map NodeDoc.id).Nodup)
    (hndsubs : (subs.map SubmittedNode.id).Nodup)
    (hok : syncWorkspaceNodes store callerId hid subs = some res) :
    (∀ n ∈ res, n.id ∈ activeIdsIn store hid → (∀ sn ∈ subs, sn.id ≠ n.id) →
        n.isActive = false) ∧
    (∀ sn ∈ subs, ∀ n ∈ store, n.id = sn.id → n.userId = callerId → n.horizonId = hid →
        applySet n sn ∈ res) ∧
    (∀ sn ∈ subs, ¬ sn.id ∈ store.map NodeDoc.id → freshDoc callerId hid sn ∈ res) := by
  unfold syncWorkspaceNodes at hok
  split at hok
  · exact absurd hok (by simp)
  · rename_i hcond
    push_neg at hcond
    obtain ⟨hnocol, hndnew⟩ := hcond
    injection hok with hok
    subst hok
    have hdeact_id : (syncDeactivate store hid subs).map NodeDoc.id
        = store.map NodeDoc.id := by
      unfold syncDeactivate
      rw [List.map_map]
      apply List.map_congr_left
      intro a _
      simp only [Function.comp]
      split <;> rfl
    have hfresh_id : ((syncNewSubs store hid subs).map (freshDoc callerId hid)).map NodeDoc.id
        = (syncNewSubs store hid subs).map SubmittedNode.id := by
      rw [List.map_map]
      apply List.map_congr_left
      intro a _
      rfl
    have hnd_base : ((syncDeactivate store hid subs
        ++ (syncNewSubs store hid subs).map (freshDoc callerId hid)).map NodeDoc.id).Nodup := by
      rw [List.map_append, hdeact_id, hfresh_id, List.nodup_append]
      refine ⟨hndstore, hndnew, ?_⟩
      intro a ha hb
      obtain ⟨n, hn, hnid⟩ := List.mem_map.mp ha
      obtain ⟨sn, hsn, hsnid⟩ := List.mem_map.mp hb
      exact hnocol sn hsn n hn (by rw [hnid, ← hsnid])
    have hstore_mem_s1 : ∀ n ∈ store, n.id ∈ subs.map SubmittedNode.id →
        n ∈ syncDeactivate store hid subs := by
      intro n hn hin
      have hnd' : ¬ n.id ∈ syncToDelete store hid subs := by
        unfold syncToDelete
        rw [List.mem_filter]
        rintro ⟨-, hnot⟩
        simp only [decide_eq_true_eq] at hnot
        exact hnot hin
      unfold syncDeactivate
      exact List.mem_map.mpr ⟨n, hn, if_neg hnd'⟩
    refine ⟨?_, ?_, ?_⟩
    · intro n hn hact hna
      refine bulk_pres_inactive callerId hid subs (activeIdsIn store hid) subs _
        (fun sn hsn => hsn) ?_ n hn hact hna
      intro m hm hmact hmna
      rcases List.mem_append.mp hm with hm1 | hm2
      · unfold syncDeactivate at hm1
        obtain ⟨x, hx, hfx⟩ := List.mem_map.mp hm1
        by_cases hc : x.id ∈ syncToDelete store hid subs
        · rw [← hfx, if_pos hc]
        · have hmx : m = x := by rw [← hfx, if_neg hc]
          subst hmx
          exfalso
          apply hc
          unfold syncToDelete
          rw [List.mem_filter]
          refine ⟨hmact, ?_⟩
          simp only [decide_eq_true_eq]
          intro hmem
          obtain ⟨sn, hsn, hsneq⟩ := List.mem_map.mp hmem
          exact hmna sn hsn hsneq
      · obtain ⟨sn, hsn, hfsn⟩ := List.mem_map.mp hm2
        exfalso
        apply hmna sn (List.mem_of_mem_filter hsn)
        rw [← hfsn]
        rfl
    · intro sn hsn n hn hid' huser hhor
      refine bulk_applies callerId hid subs _ hnd_base hndsubs sn hsn n ?_ hid' huser hhor
      exact List.mem_append_left _
        (hstore_mem_s1 n hn (by rw [hid']; exact List.mem_map_of_mem _ hsn))
    · intro sn hsn hnotin
      have hsn_new : sn ∈ syncNewSubs store hid subs := by
        unfold syncNewSubs
        rw [List.mem_filter]
        refine ⟨hsn, ?_⟩
        simp only [decide_eq_true_eq]
        intro hmem
        obtain ⟨m, hm, hmid, -, -⟩ := mem_activeIdsIn.mp hmem
        exact hnotin (hmid ▸ List.mem_map_of_mem _ hm)
      have hfresh_mem : freshDoc callerId hid sn ∈ syncDeactivate store hid subs
          ++ (syncNewSubs store hid subs).map (freshDoc callerId hid) :=
        List.mem_append_right _ (List.mem_map_of_mem _ hsn_new)
      have happ := bulk_applies callerId hid subs _ hnd_base hndsubs sn hsn
        (freshDoc callerId hid sn) hfresh_mem rfl rfl rfl
      rw [applySet_freshDoc] at happ
      exact happ

/-- C9 amended witness: the owner u1 saving workspace W with its node
X keeps X in place: the bulk update matches and the updated doc is in
the persisted store. -/
theorem syncWorkspaceNodes_spec_witness :
    applySet { baseNode "X" "W" with parentId := some "A" }
        { id := "X", type := "customNode", position := { x := 0, y := 0 }, data := "", selected := false }
      ∈ statsStore :=
  (syncWorkspaceNodes_spec statsStore "u1" "W" statsSubs statsStore
      (by decide) (by decide) (by decide)).2.1
    { id := "X", type := "customNode", position := { x := 0, y := 0 }, data := "", selected := false }
    (by decide) { baseNode "X" "W" with parentId := some "A" } (by decide)
    (by decide) (by decide) (by decide)

end EventHorizon
